import Mathlib

/-
Verification of the offline ranking-evaluation engine and model-selection
protocol of `train.py` (bundle recommendation training script).

The Python source is embedded shallowly:
  * score rows, ground-truth rows and train-mask rows become Lean lists
    (`List ℚ` / `List Bool`), one list per user;
  * `torch.topk` becomes `topkIdx` (indices sorted by descending score,
    ties by lower index, then truncated to `k`);
  * `get_recall`, `get_ndcg`, the per-pass accumulator of `get_metrics`,
    and the final division of `test` are translated function by function.
    Metric values use exact arithmetic: recall values are rationals, ndcg
    values are reals (the discount `1 / log2(rank+1)` is irrational);
  * the `1e8 * train_mask` subtraction of `test` becomes `applyMask`;
  * Python's `ZeroDivisionError` at the final `res[0] / res[1]` division
    and at `% ed_interval_bs` is modelled by `Option` (`none` = raised);
  * the checkpoint selector `log_metrics` becomes a pure function that
    returns the new best snapshot, the new best epoch, and an `Option`
    holding everything persisted on improvement (`none` = nothing
    persisted).
-/

namespace BunCa

/-! ## Top-k selection (torch.topk) -/

/-- Embeds `grd.sum(dim=1)` for one user row: the number of ground-truth positives. -/
def numPos (grd : List Bool) : ℕ := grd.count true

/-- Ranking order produced by `torch.topk` on one score row: index `i` comes
before (or equals) index `j` when its score is larger, ties broken by the
lower index. -/
def rankRel (pred : List ℚ) (i j : ℕ) : Prop :=
  pred.getD j 0 < pred.getD i 0 ∨ (pred.getD i 0 = pred.getD j 0 ∧ i ≤ j)

instance rankRelDecidable (pred : List ℚ) : DecidableRel (rankRel pred) :=
  fun _ _ => instDecidableOr

/-- Embeds `torch.topk(pred, k)` on one score row: the indices of the `k` largest
scores, in ranking order. -/
def topkIdx (pred : List ℚ) (k : ℕ) : List ℕ :=
  (List.insertionSort (rankRel pred) (List.range pred.length)).take k

/-- Embeds `is_hit` for one user row: the ground-truth bit at each of the top-`k`
column indices (`grd[row_indice, col_indice]`). -/
def is_hit (grd : List Bool) (pred : List ℚ) (k : ℕ) : List Bool :=
  (topkIdx pred k).map (fun i => grd.getD i false)

/-- Embeds `is_hit.sum(dim=1)` for one user row: how many of the top-`k` slots are
true positives. -/
def hitCnt (grd : List Bool) (pred : List ℚ) (k : ℕ) : ℕ :=
  (is_hit grd pred k).count true

/-! ## get_recall -/

/-- One user row of an evaluation batch: ground-truth bits and the score row
the metrics are computed from. -/
structure EvalRow where
  grd : List Bool
  pred : List ℚ

/-- The `epsilon = 1e-8` guard of `get_recall`. -/
def epsilon : ℚ := 1 / 100000000

/-- Embeds `get_recall(pred, grd, is_hit, topk)`: the batch pair
`[nomina, denorm]` where `nomina = (hit_cnt / (num_pos + epsilon)).sum()` and
`denorm = pred.shape[0] - (num_pos == 0).sum()`. -/
def get_recall (batch : List EvalRow) (k : ℕ) : ℚ × ℕ :=
  ((batch.map (fun r => (hitCnt r.grd r.pred k : ℚ) / ((numPos r.grd : ℚ) + epsilon))).sum,
   batch.length - (batch.filter (fun r => numPos r.grd == 0)).length)

/-! ## get_ndcg -/

/-- Discount weight of 0-based rank `j` inside `DCG`:
`1 / torch.log2(torch.arange(2, topk + 2))[j] = 1 / log2(j + 2)`. -/
noncomputable def logWeight (j : ℕ) : ℝ := 1 / Real.logb 2 ((j : ℝ) + 2)

/-- Generalized `DCG` of a hit vector whose first entry sits at absolute rank `s`:
`(hit / log2(arange)).sum()` written as structural recursion. -/
noncomputable def dcgFrom : ℕ → List Bool → ℝ
  | _, [] => 0
  | s, b :: t => (if b then logWeight s else 0) + dcgFrom (s + 1) t

/-- Embeds `DCG(hit, topk)` of the source: weighted sum of the hit vector starting
at rank 0. -/
noncomputable def DCG (hit : List Bool) : ℝ := dcgFrom 0 hit

/-- Embeds `IDCG(num_pos, topk)` of the source: the DCG of the ideal hit vector,
a length-`topk` vector whose first `num_pos` entries are 1. -/
noncomputable def IDCG (num_pos k : ℕ) : ℝ :=
  DCG (List.replicate (min num_pos k) true ++ List.replicate (k - min num_pos k) false)

/-- Per-user ndcg of `get_ndcg`: `dcg / IDCGs[num_pos.clamp(0, topk)]` with
`IDCGs[0] = 1` (the "avoid 0/0" entry). -/
noncomputable def ndcgUser (hit : List Bool) (num_pos k : ℕ) : ℝ :=
  DCG hit / (if min num_pos k = 0 then 1 else IDCG (min num_pos k) k)

/-- The denominator of `get_ndcg`:
`pred.shape[0] - (num_pos == 0).sum()` computed on the clamped `num_pos`. -/
def ndcgDen (batch : List EvalRow) (k : ℕ) : ℕ :=
  batch.length - (batch.filter (fun r => min (numPos r.grd) k == 0)).length

/-- Embeds `get_ndcg(pred, grd, is_hit, topk)`: the batch pair `[nomina, denorm]`. -/
noncomputable def get_ndcg (batch : List EvalRow) (k : ℕ) : ℝ × ℕ :=
  ((batch.map (fun r => ndcgUser (is_hit r.grd r.pred k) (numPos r.grd) k)).sum,
   ndcgDen batch k)

/-! ## get_metrics accumulation and test

The running accumulator `tmp_metrics[m][topk] = [nomina, denorm]` is split
into a computable part (recall nominator, recall denominator, ndcg
denominator — rationals and naturals) and the real-valued ndcg nominator,
because the ndcg nominator lives in `ℝ`. Both parts are folded batch by
batch exactly as `get_metrics` adds `res[i]` into `metrics[m][topk][i]`. -/

/-- Embeds `tmp_metrics` at the start of a pass: every `[nomina, denorm]` is
`[0, 0]`. Layout: `(recall nominator, recall denominator), ndcg denominator`,
indexed by `topk`. -/
def initAcc : ℕ → (ℚ × ℕ) × ℕ := fun _ => ((0, 0), 0)

/-- One `get_metrics` call: add the batch's `get_recall` pair and the
batch's ndcg denominator into the accumulator, at every configured `topk`. -/
def stepAcc (topks : List ℕ) (acc : ℕ → (ℚ × ℕ) × ℕ) (batch : List EvalRow) :
    ℕ → (ℚ × ℕ) × ℕ :=
  fun k =>
    if k ∈ topks then
      (((acc k).1.1 + (get_recall batch k).1, (acc k).1.2 + (get_recall batch k).2),
       (acc k).2 + ndcgDen batch k)
    else acc k

/-- The computable accumulator after all batches of a pass. -/
def accMetrics (batches : List (List EvalRow)) (topks : List ℕ) : ℕ → (ℚ × ℕ) × ℕ :=
  batches.foldl (stepAcc topks) initAcc

/-- One `get_metrics` call, ndcg-nominator component. -/
noncomputable def stepNdcgNom (topks : List ℕ) (acc : ℕ → ℝ) (batch : List EvalRow) : ℕ → ℝ :=
  fun k => if k ∈ topks then acc k + (get_ndcg batch k).1 else acc k

/-- The ndcg nominator after all batches of a pass. -/
noncomputable def accNdcgNom (batches : List (List EvalRow)) (topks : List ℕ) : ℕ → ℝ :=
  batches.foldl (stepNdcgNom topks) (fun _ => 0)

/-- Embeds `pred_b -= 1e8 * train_mask_u_b` for one user row. -/
def applyMask (pred : List ℚ) (mask : List Bool) : List ℚ :=
  (List.range pred.length).map
    (fun i => pred.getD i 0 - (if mask.getD i false then 100000000 else 0))

/-- One user row as yielded by the evaluation dataloader:
`(users, ground_truth_u_b, train_mask_u_b)`. -/
structure TestRow where
  grd : List Bool
  pred : List ℚ
  mask : List Bool

/-- The masking step of `test` applied to one dataloader batch. -/
def evalBatch (b : List TestRow) : List EvalRow :=
  b.map (fun r => ⟨r.grd, applyMask r.pred r.mask⟩)

/-- Embeds `test(model, dataloader, conf)`, metric part: mask every batch, fold
`get_metrics` over the batches, then perform the final
`metrics[m][topk] = res[0] / res[1]` divisions. A zero denominator raises
`ZeroDivisionError` in Python; that outcome is `none`. On success the
result holds the final recall (by `topk`) and the final ndcg (by `topk`). -/
noncomputable def test (batches : List (List TestRow)) (topks : List ℕ) :
    Option ((ℕ → ℚ) × (ℕ → ℝ)) :=
  if topks.all (fun k => !((accMetrics (batches.map evalBatch) topks k).1.2 == 0) &&
      !((accMetrics (batches.map evalBatch) topks k).2 == 0)) then
    some (fun k => (accMetrics (batches.map evalBatch) topks k).1.1 /
            ((accMetrics (batches.map evalBatch) topks k).1.2 : ℚ),
          fun k => accNdcgNom (batches.map evalBatch) topks k /
            ((accMetrics (batches.map evalBatch) topks k).2 : ℝ))
  else none

/-! ## log_metrics: the Model Selector / Checkpoint Policy -/

/-- The configuration fields the selector reads. -/
structure Conf where
  topk : List ℕ
  topk_valid : ℕ

/-- A full metric snapshot: recall and ndcg, by `topk`, for both splits
(`metrics["val"]`, `metrics["test"]` / `best_metrics`). -/
structure Snapshot where
  valRecall : ℕ → ℚ
  valNdcg : ℕ → ℚ
  testRecall : ℕ → ℚ
  testNdcg : ℕ → ℚ

/-- The copy loop of `log_metrics`:
`best_metrics[key][metric][topk] = metrics[key][metric][topk]` for every
configured `topk`, both splits, both metrics. -/
def updateBest (topks : List ℕ) (best cand : Snapshot) : Snapshot where
  valRecall := fun k => if k ∈ topks then cand.valRecall k else best.valRecall k
  valNdcg := fun k => if k ∈ topks then cand.valNdcg k else best.valNdcg k
  testRecall := fun k => if k ∈ topks then cand.testRecall k else best.testRecall k
  testNdcg := fun k => if k ∈ topks then cand.testNdcg k else best.testNdcg k

/-- Embeds `log_metrics(...)`. Here `model` stands for `model.state_dict()`, `confDict`
for the configuration dictionary (an association list so that
`del dump_conf["device"]` is a key filter), `exportD` for the test-split
prediction export `(user_list, bundle_list, score_list)`. Returns the new
`best_metrics`, the new `best_epoch`, and `some` of everything persisted
(model checkpoint, dumped conf, prediction export) — `none` when the
candidate did not improve and nothing was written. -/
def log_metrics {M E : Type} (conf : Conf) (model : M)
    (confDict : List (String × String)) (metrics : Snapshot) (epoch : ℕ)
    (best : Snapshot) (best_epoch : ℕ) (exportD : E) :
    Snapshot × ℕ × Option (M × List (String × String) × E) :=
  if best.valRecall conf.topk_valid < metrics.valRecall conf.topk_valid ∧
      best.valNdcg conf.topk_valid < metrics.valNdcg conf.topk_valid then
    (updateBest conf.topk best metrics, epoch,
     some (model, confDict.filter (fun p => p.1 ≠ "device"), exportD))
  else
    (best, best_epoch, none)

/-! ## The ED augmentation schedule of main() -/

/-- Python `int()` on a rational: truncation toward zero. -/
def ratTrunc (q : ℚ) : ℤ := q.num.tdiv (q.den : ℤ)

/-- Embeds `ed_interval_bs = int(batch_cnt * conf["ed_interval"])`. -/
def ed_interval_bs (batch_cnt : ℕ) (ed_interval : ℚ) : ℕ :=
  (ratTrunc ((batch_cnt : ℚ) * ed_interval)).toNat

/-- Modelled from the spec: the spec's own schedule divisor
`ceil(num_batches_per_epoch * interval_fraction)`, stated for comparison
with the source's `ed_interval_bs` (claim C8). -/
def ceilInterval (batch_cnt : ℕ) (ed_interval : ℚ) : ℕ :=
  (⌈(batch_cnt : ℚ) * ed_interval⌉).toNat

/-- The `ED_drop` flag computed for the training batch with global index
`batch_anchor`: `conf["aug_type"] == "ED" and (batch_anchor + 1) %
ed_interval_bs == 0`. Python raises `ZeroDivisionError` when the modulo
divisor is zero; that outcome is `none`. -/
def edDrop (aug_type : String) (batch_cnt : ℕ) (ed_interval : ℚ)
    (batch_anchor : ℕ) : Option Bool :=
  if aug_type = "ED" then
    if ed_interval_bs batch_cnt ed_interval = 0 then none
    else some ((batch_anchor + 1) % ed_interval_bs batch_cnt ed_interval == 0)
  else some false

/-! ## Basic facts about rows with zero positives -/

theorem numPos_zero_getD {grd : List Bool} (h : numPos grd = 0) (i : ℕ) :
    grd.getD i false = false := by
  by_cases hi : i < grd.length
  · rw [List.getD_eq_getElem _ _ hi]
    have hmem : grd[i] ∈ grd := List.getElem_mem hi
    have hnot : true ∉ grd := List.count_eq_zero.mp h
    cases hb : grd[i] with
    | true => exact absurd (hb ▸ hmem) hnot
    | false => rfl
  · exact List.getD_eq_default _ _ (le_of_not_lt hi)

theorem hitCnt_of_numPos_zero {grd : List Bool} (pred : List ℚ) (k : ℕ)
    (h : numPos grd = 0) : hitCnt grd pred k = 0 := by
  unfold hitCnt is_hit
  refine List.count_eq_zero.mpr ?_
  intro hmem
  obtain ⟨i, _, hget⟩ := List.mem_map.mp hmem
  rw [numPos_zero_getD h i] at hget
  exact Bool.false_ne_true hget

theorem dcgFrom_of_count_zero {hit : List Bool} (s : ℕ)
    (h : hit.count true = 0) : dcgFrom s hit = 0 := by
  induction hit generalizing s with
  | nil => rfl
  | cons b t ih =>
    cases b with
    | true => simp [List.count_cons] at h
    | false =>
      have ht : t.count true = 0 := by simpa [List.count_cons] using h
      simp [dcgFrom, ih (s + 1) ht]

theorem logWeight_pos (j : ℕ) : 0 < logWeight j := by
  unfold logWeight
  have hx : (1 : ℝ) < (j : ℝ) + 2 := by
    have := Nat.cast_nonneg (α := ℝ) j
    linarith
  exact div_pos one_pos (Real.logb_pos one_lt_two hx)

theorem logWeight_succ_lt (j : ℕ) : logWeight (j + 1) < logWeight j := by
  unfold logWeight
  have h0 : (0 : ℝ) ≤ (j : ℝ) := Nat.cast_nonneg j
  have hp : 0 < Real.logb 2 ((j : ℝ) + 2) := Real.logb_pos one_lt_two (by linarith)
  have hlt : Real.logb 2 ((j : ℝ) + 2) < Real.logb 2 (((j + 1 : ℕ) : ℝ) + 2) :=
    Real.logb_lt_logb one_lt_two (by linarith) (by push_cast; linarith)
  rw [one_div, one_div]
  exact inv_strictAnti₀ hp hlt

theorem dcgFrom_nonneg (s : ℕ) (hit : List Bool) : 0 ≤ dcgFrom s hit := by
  induction hit generalizing s with
  | nil => exact le_refl 0
  | cons b t ih =>
    have hw : (0 : ℝ) ≤ (if b then logWeight s else 0) := by
      by_cases hb : b
      · simpa [hb] using (logWeight_pos s).le
      · simp [hb]
    have := ih (s + 1)
    simp only [dcgFrom]
    linarith

/-! ## Ideal DCG as a sum of the first weights -/

/-- Sum of `m` discount weights starting at absolute rank `s`
(the DCG of an all-ones prefix). -/
noncomputable def sumW : ℕ → ℕ → ℝ
  | _, 0 => 0
  | s, m + 1 => logWeight s + sumW (s + 1) m

theorem sumW_nonneg (s m : ℕ) : 0 ≤ sumW s m := by
  induction m generalizing s with
  | zero => exact le_refl 0
  | succ m ih => simpa [sumW] using add_nonneg (logWeight_pos s).le (ih (s + 1))

theorem sumW_pos (s m : ℕ) (hm : 0 < m) : 0 < sumW s m := by
  cases m with
  | zero => exact absurd hm (lt_irrefl 0)
  | succ m =>
    simpa [sumW] using add_pos_of_pos_of_nonneg (logWeight_pos s) (sumW_nonneg (s + 1) m)

theorem sumW_shift_le (s m : ℕ) : sumW (s + 1) m ≤ sumW s m := by
  induction m generalizing s with
  | zero => exact le_refl 0
  | succ m ih =>
    simp only [sumW]
    exact add_le_add (logWeight_succ_lt s).le (ih (s + 1))

theorem sumW_shift_lt (s m : ℕ) (hm : 0 < m) : sumW (s + 1) m < sumW s m := by
  cases m with
  | zero => exact absurd hm (lt_irrefl 0)
  | succ m =>
    simp only [sumW]
    exact add_lt_add_of_lt_of_le (logWeight_succ_lt s) (sumW_shift_le (s + 1) m)

theorem dcgFrom_replicate (s a b : ℕ) :
    dcgFrom s (List.replicate a true ++ List.replicate b false) = sumW s a := by
  induction a generalizing s with
  | zero =>
    simp only [List.replicate, List.nil_append]
    induction b generalizing s with
    | zero => rfl
    | succ b ihb => simpa [List.replicate, dcgFrom, sumW] using ihb (s + 1)
  | succ a ih => simpa [List.replicate, dcgFrom, sumW] using ih (s + 1)

/-- The value `IDCG(num_pos, topk)` is the sum of the first `min num_pos topk`
discount weights. -/
theorem IDCG_eq_sumW (p k : ℕ) : IDCG p k = sumW 0 (min p k) := by
  unfold IDCG DCG
  exact dcgFrom_replicate 0 (min p k) (k - min p k)

/-- A hit vector with at most `m` hits has DCG at most the sum of the first
`m` weights. -/
theorem dcgFrom_le_sumW (hit : List Bool) (s m : ℕ) (h : hit.count true ≤ m) :
    dcgFrom s hit ≤ sumW s m := by
  induction hit generalizing s m with
  | nil => simpa [dcgFrom] using sumW_nonneg s m
  | cons b t ih =>
    cases b with
    | false =>
      have ht : t.count true ≤ m := by
        simpa [List.count_cons] using h
      calc dcgFrom s (false :: t) = dcgFrom (s + 1) t := by simp [dcgFrom]
        _ ≤ sumW (s + 1) m := ih (s + 1) m ht
        _ ≤ sumW s m := sumW_shift_le s m
    | true =>
      have hc : t.count true + 1 ≤ m := by
        simpa [List.count_cons] using h
      obtain ⟨m', rfl⟩ : ∃ m', m = m' + 1 := ⟨m - 1, by omega⟩
      have ht : t.count true ≤ m' := by omega
      simp only [dcgFrom, sumW, if_true]
      exact add_le_add (le_refl (logWeight s)) (ih (s + 1) m' ht)

/-- Exact characterization of when a hit vector with at most `m` hits
reaches the ideal DCG: exactly when its first `m` slots are all hits. -/
theorem dcgFrom_eq_sumW_iff (hit : List Bool) (s m : ℕ) (h : hit.count true ≤ m) :
    dcgFrom s hit = sumW s m ↔ ∀ j < m, hit.getD j false = true := by
  induction hit generalizing s m with
  | nil =>
    cases m with
    | zero => simp [dcgFrom, sumW]
    | succ m =>
      constructor
      · intro he
        exact absurd he.symm (ne_of_gt (by simpa [dcgFrom] using sumW_pos s (m + 1) (Nat.succ_pos m)))
      · intro hall
        exact absurd (hall 0 (Nat.succ_pos m)) (by simp)
  | cons b t ih =>
    cases m with
    | zero =>
      have hb : b = false := by
        cases b with
        | true => simp [List.count_cons] at h
        | false => rfl
      subst hb
      have ht : t.count true = 0 := by simpa [List.count_cons] using h
      simp [dcgFrom, sumW, dcgFrom_of_count_zero (s + 1) ht]
    | succ m =>
      cases b with
      | true =>
        have ht : t.count true ≤ m := by
          have : t.count true + 1 ≤ m + 1 := by simpa [List.count_cons] using h
          omega
        constructor
        · intro he
          have he2 : dcgFrom (s + 1) t = sumW (s + 1) m := by
            have : logWeight s + dcgFrom (s + 1) t = logWeight s + sumW (s + 1) m := by
              simpa [dcgFrom, sumW] using he
            linarith
          intro j hj
          cases j with
          | zero => rfl
          | succ j =>
            have := (ih (s + 1) m ht).mp he2 j (by omega)
            simpa using this
        · intro hall
          have he2 : dcgFrom (s + 1) t = sumW (s + 1) m := by
            refine (ih (s + 1) m ht).mpr ?_
            intro j hj
            have := hall (j + 1) (by omega)
            simpa using this
          simp [dcgFrom, sumW, he2]
      | false =>
        have ht : t.count true ≤ m + 1 := by simpa [List.count_cons] using h
        constructor
        · intro he
          have hlt : dcgFrom s (false :: t) < sumW s (m + 1) := by
            calc dcgFrom s (false :: t) = dcgFrom (s + 1) t := by simp [dcgFrom]
              _ ≤ sumW (s + 1) (m + 1) := dcgFrom_le_sumW t (s + 1) (m + 1) ht
              _ < sumW s (m + 1) := sumW_shift_lt s (m + 1) (Nat.succ_pos m)
          exact absurd he (ne_of_lt hlt)
        · intro hall
          have := hall 0 (Nat.succ_pos m)
          simp at this

/-! ## Counting hits -/

theorem topkIdx_nodup (pred : List ℚ) (k : ℕ) : (topkIdx pred k).Nodup := by
  unfold topkIdx
  have h1 : (List.insertionSort (rankRel pred) (List.range pred.length)).Nodup :=
    (List.perm_insertionSort (rankRel pred) (List.range pred.length)).nodup_iff.mpr
      (List.nodup_range _)
  exact List.Nodup.sublist (List.take_sublist k _) h1

theorem topkIdx_length (pred : List ℚ) (k : ℕ) : (topkIdx pred k).length ≤ k := by
  unfold topkIdx
  exact List.length_take_le k _

theorem topkIdx_mem_range (pred : List ℚ) (k : ℕ) {i : ℕ} (h : i ∈ topkIdx pred k) :
    i < pred.length := by
  unfold topkIdx at h
  have h2 := (List.take_sublist k _).subset h
  have h3 := (List.perm_insertionSort (rankRel pred) (List.range pred.length)).subset h2
  exact List.mem_range.mp h3

theorem range_countP_getD (l : List Bool) :
    (List.range l.length).countP (fun i => l.getD i false) = l.count true := by
  induction l with
  | nil => rfl
  | cons b t ih =>
    have hcomp : ((fun i => (b :: t).getD i false) ∘ Nat.succ) = fun i => t.getD i false := by
      funext i
      simp
    rw [List.length_cons, List.range_succ_eq_map, List.countP_cons, List.countP_map, hcomp, ih]
    cases b <;> simp [List.count_cons]

/-- Mapping a duplicate-free index list into a ground-truth row yields at
most as many `true`s as the row holds. -/
theorem countP_getD_le_count (grd : List Bool) (L : List ℕ) (hnd : L.Nodup) :
    L.countP (fun i => grd.getD i false) ≤ grd.count true := by
  rw [← range_countP_getD grd, List.countP_eq_length_filter, List.countP_eq_length_filter]
  refine List.Subperm.length_le (List.subperm_of_subset ?_ ?_)
  · exact hnd.filter _
  · intro i hi
    have hmem := List.mem_filter.mp hi
    refine List.mem_filter.mpr ⟨List.mem_range.mpr ?_, hmem.2⟩
    by_contra hge
    have : grd.getD i false = false := List.getD_eq_default _ _ (by omega)
    rw [this] at hmem
    exact Bool.false_ne_true hmem.2

theorem hitCnt_le_numPos (grd : List Bool) (pred : List ℚ) (k : ℕ) :
    hitCnt grd pred k ≤ numPos grd := by
  unfold hitCnt is_hit numPos
  rw [List.count_eq_countP, List.countP_map]
  have hcomp : ((fun x : Bool => x == true) ∘ fun i => grd.getD i false) =
      fun i => grd.getD i false := by
    funext i
    simp
  rw [hcomp]
  exact countP_getD_le_count grd _ (topkIdx_nodup pred k)

theorem hitCnt_le_k (grd : List Bool) (pred : List ℚ) (k : ℕ) :
    hitCnt grd pred k ≤ k := by
  unfold hitCnt
  calc (is_hit grd pred k).count true ≤ (is_hit grd pred k).length := List.count_le_length _ _
    _ = (topkIdx pred k).length := List.length_map _ _
    _ ≤ k := topkIdx_length pred k

/-! ## Per-user NDCG bounds -/

theorem ndcgUser_nonneg (hit : List Bool) (p k : ℕ) : 0 ≤ ndcgUser hit p k := by
  unfold ndcgUser
  refine div_nonneg (dcgFrom_nonneg 0 hit) ?_
  by_cases h : min p k = 0
  · simp [h]
  · rw [if_neg h, IDCG_eq_sumW]
    exact sumW_nonneg 0 _

/-- Core per-user NDCG bound: a hit vector with at most `min p k` hits has
`ndcgUser ≤ 1`, with equality exactly when the first `min p k` slots are all
hits. -/
theorem ndcgUser_le_one_iff (hit : List Bool) (p k : ℕ) (hp : 1 ≤ p) (hk : 1 ≤ k)
    (hc : hit.count true ≤ min p k) :
    ndcgUser hit p k ≤ 1 ∧
      (ndcgUser hit p k = 1 ↔ ∀ j < min p k, hit.getD j false = true) := by
  have hm : 0 < min p k := lt_min hp hk
  have hne : min p k ≠ 0 := Nat.pos_iff_ne_zero.mp hm
  have hmin : min (min p k) k = min p k := by omega
  have hIDCG : IDCG (min p k) k = sumW 0 (min p k) := by
    rw [IDCG_eq_sumW, hmin]
  have hpos : (0 : ℝ) < sumW 0 (min p k) := sumW_pos 0 _ hm
  unfold ndcgUser DCG
  rw [if_neg hne, hIDCG]
  constructor
  · rw [div_le_one hpos]
    exact dcgFrom_le_sumW hit 0 _ hc
  · rw [div_eq_one_iff_eq (ne_of_gt hpos)]
    exact dcgFrom_eq_sumW_iff hit 0 _ hc

theorem ndcgUser_of_numPos_zero (u : EvalRow) (k : ℕ) (h : numPos u.grd = 0) :
    ndcgUser (is_hit u.grd u.pred k) (numPos u.grd) k = 0 := by
  unfold ndcgUser
  rw [h]
  have hmin : min 0 k = 0 := by omega
  rw [hmin, if_pos rfl]
  have hcnt : (is_hit u.grd u.pred k).count true = 0 :=
    hitCnt_of_numPos_zero u.pred k h
  unfold DCG
  rw [dcgFrom_of_count_zero 0 hcnt]
  simp

/-- C4 (amended): for every user with at least one positive and every K ≥ 1,
the per-user NDCG computed from the top-K hit indicators is at most 1, and
it equals 1 exactly when the top `min num_pos K` ranks are all hits (for
`num_pos ≤ K` this says all true positives occupy the top `num_pos` ranks;
for `num_pos > K` it says all K retrieved slots are hits). -/
theorem c4_ndcg_le_one (grd : List Bool) (pred : List ℚ) (k : ℕ)
    (hp : 1 ≤ numPos grd) (hk : 1 ≤ k) :
    ndcgUser (is_hit grd pred k) (numPos grd) k ≤ 1 ∧
      (ndcgUser (is_hit grd pred k) (numPos grd) k = 1 ↔
        ∀ j < min (numPos grd) k, (is_hit grd pred k).getD j false = true) := by
  refine ndcgUser_le_one_iff _ _ _ hp hk ?_
  exact le_min (hitCnt_le_numPos grd pred k) (hitCnt_le_k grd pred k)

/-- C4 witness: the bound instantiated at a concrete user. -/
theorem c4_ndcg_le_one_witness :
    ndcgUser (is_hit [true, false] [5, 1] 1) (numPos [true, false]) 1 ≤ 1 ∧
      (ndcgUser (is_hit [true, false] [5, 1] 1) (numPos [true, false]) 1 = 1 ↔
        ∀ j < min (numPos [true, false]) 1, (is_hit [true, false] [5, 1] 1).getD j false = true) :=
  c4_ndcg_le_one [true, false] [5, 1] 1 (by decide) (by decide)

/-- C4 counterexample: with ground truth `[1,1,1,0,0]` (3 positives), scores
`[10,9,1,2,3]` and K = 2, both top-2 slots are hits so NDCG@2 = 1, yet
positive item 2 is NOT among the top `num_positives = 3` ranks (the top-3
list is `[0,1,4]`), refuting the "equality only if all true positives occupy
the top num_positives ranks" direction of the claim as stated. -/
theorem c4_counterexample :
    ndcgUser (is_hit [true, true, true, false, false] [10, 9, 1, 2, 3] 2)
        (numPos [true, true, true, false, false]) 2 = 1 ∧
      ([true, true, true, false, false] : List Bool).getD 2 false = true ∧
      2 ∉ topkIdx [10, 9, 1, 2, 3] (numPos [true, true, true, false, false]) := by
  refine ⟨?_, by decide, by decide⟩
  have h1 : is_hit [true, true, true, false, false] [10, 9, 1, 2, 3] 2 = [true, true] := by
    decide
  have h2 : numPos [true, true, true, false, false] = 3 := by decide
  rw [h1, h2]
  unfold ndcgUser
  have hmin : min 3 2 = 2 := by decide
  rw [hmin, if_neg (by decide)]
  have hI : IDCG 2 2 = DCG [true, true] := rfl
  rw [hI]
  have hpos : 0 < DCG [true, true] := by
    have hw0 := logWeight_pos 0
    have hw1 := logWeight_pos 1
    simp only [DCG, dcgFrom, if_true]
    linarith
  exact div_self (ne_of_gt hpos)

/-- C3: a user with zero ground-truth positives contributes `(0, 0)` to both
the recall and ndcg `[nomina, denorm]` pairs (no error is possible: the
computation is total), and inserting such a user anywhere in a batch leaves
both batch pairs — hence the final aggregates of the pass — unchanged. -/
theorem c3_zero_positive_user (b1 b2 : List EvalRow) (u : EvalRow) (k : ℕ)
    (h : numPos u.grd = 0) :
    get_recall [u] k = (0, 0) ∧ get_ndcg [u] k = (0, 0) ∧
      get_recall (b1 ++ u :: b2) k = get_recall (b1 ++ b2) k ∧
      get_ndcg (b1 ++ u :: b2) k = get_ndcg (b1 ++ b2) k := by
  have hterm : (hitCnt u.grd u.pred k : ℚ) / ((numPos u.grd : ℚ) + epsilon) = 0 := by
    rw [hitCnt_of_numPos_zero u.pred k h]
    simp
  have hmin : min (numPos u.grd) k = 0 := by omega
  refine ⟨?_, ?_, ?_, ?_⟩
  · unfold get_recall
    simp [hterm, h]
    exact Or.inl (hitCnt_of_numPos_zero u.pred k h)
  · unfold get_ndcg ndcgDen
    simp [ndcgUser_of_numPos_zero u k h, hmin]
  · unfold get_recall
    have hf1 := List.length_filter_le (fun r : EvalRow => numPos r.grd == 0) b1
    have hf2 := List.length_filter_le (fun r : EvalRow => numPos r.grd == 0) b2
    refine Prod.ext ?_ ?_
    · simp [hterm]
    · simp only [List.filter_append, List.filter_cons, List.length_append, List.length_cons, h]
      simp only [beq_self_eq_true, if_true]
      simp only [List.length_append, List.length_cons]
      omega
  · unfold get_ndcg ndcgDen
    have hf1 := List.length_filter_le (fun r : EvalRow => min (numPos r.grd) k == 0) b1
    have hf2 := List.length_filter_le (fun r : EvalRow => min (numPos r.grd) k == 0) b2
    refine Prod.ext ?_ ?_
    · simp [ndcgUser_of_numPos_zero u k h]
    · simp only [List.filter_append, List.filter_cons, List.length_append, List.length_cons, hmin]
      simp only [beq_self_eq_true, if_true]
      simp only [List.length_append, List.length_cons]
      omega

/-- C3 witness: inserting the zero-positive user `⟨[false], [2]⟩` into a
one-user batch changes neither metric pair. -/
theorem c3_zero_positive_user_witness :
    get_recall [(⟨[false], [2]⟩ : EvalRow)] 1 = (0, 0) ∧
      get_ndcg [(⟨[false], [2]⟩ : EvalRow)] 1 = (0, 0) ∧
      get_recall ([⟨[true], [1]⟩] ++ (⟨[false], [2]⟩ : EvalRow) :: []) 1 =
        get_recall ([⟨[true], [1]⟩] ++ []) 1 ∧
      get_ndcg ([⟨[true], [1]⟩] ++ (⟨[false], [2]⟩ : EvalRow) :: []) 1 =
        get_ndcg ([⟨[true], [1]⟩] ++ []) 1 :=
  c3_zero_positive_user [⟨[true], [1]⟩] [] ⟨[false], [2]⟩ 1 (by decide)

/-! ## Accumulator invariants -/

theorem get_recall_nom_nonneg (batch : List EvalRow) (k : ℕ) :
    0 ≤ (get_recall batch k).1 := by
  unfold get_recall
  refine List.sum_nonneg ?_
  intro x hx
  obtain ⟨r, _, rfl⟩ := List.mem_map.mp hx
  have heps : (0 : ℚ) < epsilon := by norm_num [epsilon]
  have hp : (0 : ℚ) ≤ (numPos r.grd : ℚ) := Nat.cast_nonneg _
  exact div_nonneg (Nat.cast_nonneg _) (by linarith)

theorem get_ndcg_nom_nonneg (batch : List EvalRow) (k : ℕ) :
    0 ≤ (get_ndcg batch k).1 := by
  unfold get_ndcg
  refine List.sum_nonneg ?_
  intro x hx
  obtain ⟨r, _, rfl⟩ := List.mem_map.mp hx
  exact ndcgUser_nonneg _ _ _

theorem recall_den_eq_countP (batch : List EvalRow) (k : ℕ) :
    (get_recall batch k).2 = batch.countP (fun r => decide (0 < numPos r.grd)) := by
  unfold get_recall
  induction batch with
  | nil => rfl
  | cons r t ih =>
    have hle := List.length_filter_le (fun r : EvalRow => numPos r.grd == 0) t
    by_cases h : numPos r.grd = 0
    · simp only [List.filter_cons, List.countP_cons, List.length_cons, h]
      simp only [beq_self_eq_true, if_true, List.length_cons]
      simp only [decide_eq_true_eq]
      rw [if_neg (by omega)]
      simp only [Nat.add_zero]
      omega
    · simp only [List.filter_cons, List.countP_cons, List.length_cons]
      rw [if_neg (by simpa using h), if_pos (by simpa using Nat.pos_of_ne_zero h)]
      omega

theorem ndcgDen_eq_countP (batch : List EvalRow) (k : ℕ) (hk : 1 ≤ k) :
    ndcgDen batch k = batch.countP (fun r => decide (0 < numPos r.grd)) := by
  unfold ndcgDen
  induction batch with
  | nil => rfl
  | cons r t ih =>
    have hle := List.length_filter_le (fun r : EvalRow => min (numPos r.grd) k == 0) t
    by_cases h : numPos r.grd = 0
    · have hmin : min (numPos r.grd) k = 0 := by omega
      simp only [List.filter_cons, List.countP_cons, List.length_cons, hmin]
      simp only [beq_self_eq_true, if_true, List.length_cons]
      simp only [decide_eq_true_eq]
      rw [if_neg (by omega)]
      simp only [Nat.add_zero]
      omega
    · have hmin : min (numPos r.grd) k ≠ 0 := by omega
      simp only [List.filter_cons, List.countP_cons, List.length_cons]
      rw [if_neg (by simpa using hmin), if_pos (by simpa using Nat.pos_of_ne_zero h)]
      omega

/-- C7: within one evaluation pass the accumulator starts from all-zero
`[nomina, denorm]` pairs, every `get_metrics` step only increases each
accumulated component (recall nominator, recall denominator, ndcg
nominator, ndcg denominator), and for K ≥ 1 both denominators count exactly
the users with at least one ground-truth positive. -/
theorem c7_accumulator_invariants (topks : List ℕ) :
    (∀ k, initAcc k = ((0, 0), 0)) ∧
      (∀ (acc : ℕ → (ℚ × ℕ) × ℕ) (batch : List EvalRow) (k : ℕ),
        (acc k).1.1 ≤ (stepAcc topks acc batch k).1.1 ∧
        (acc k).1.2 ≤ (stepAcc topks acc batch k).1.2 ∧
        (acc k).2 ≤ (stepAcc topks acc batch k).2) ∧
      (∀ (accN : ℕ → ℝ) (batch : List EvalRow) (k : ℕ),
        accN k ≤ stepNdcgNom topks accN batch k) ∧
      (∀ (batch : List EvalRow) (k : ℕ),
        (get_recall batch k).2 = batch.countP (fun r => decide (0 < numPos r.grd))) ∧
      (∀ (batch : List EvalRow) (k : ℕ), 1 ≤ k →
        ndcgDen batch k = batch.countP (fun r => decide (0 < numPos r.grd))) := by
  refine ⟨fun _ => rfl, ?_, ?_, recall_den_eq_countP, ndcgDen_eq_countP⟩
  · intro acc batch k
    unfold stepAcc
    by_cases hk : k ∈ topks
    · rw [if_pos hk]
      exact ⟨le_add_of_nonneg_right (get_recall_nom_nonneg batch k),
        Nat.le_add_right _ _, Nat.le_add_right _ _⟩
    · rw [if_neg hk]
      exact ⟨le_refl _, le_refl _, le_refl _⟩
  · intro accN batch k
    unfold stepNdcgNom
    by_cases hk : k ∈ topks
    · rw [if_pos hk]
      exact le_add_of_nonneg_right (get_ndcg_nom_nonneg batch k)
    · rw [if_neg hk]

/-- C7 witness: the invariants instantiated at a concrete configuration and
batch. -/
theorem c7_accumulator_invariants_witness :
    initAcc 2 = ((0, 0), 0) ∧
      (get_recall [(⟨[true], [1]⟩ : EvalRow)] 2).2 =
        List.countP (fun r => decide (0 < numPos r.grd)) [(⟨[true], [1]⟩ : EvalRow)] ∧
      ndcgDen [(⟨[true], [1]⟩ : EvalRow)] 2 =
        List.countP (fun r => decide (0 < numPos r.grd)) [(⟨[true], [1]⟩ : EvalRow)] := by
  have h := c7_accumulator_invariants [2]
  exact ⟨h.1 2, h.2.2.2.1 _ 2, h.2.2.2.2 _ 2 (by decide)⟩

/-! ## The Model Selector -/

/-- C1: the selector updates the best snapshot iff the candidate's
validation recall AND validation ndcg at `topk_valid` are both strictly
greater than the best's. On improvement it persists the model parameters,
the configuration with the `device` key removed and the test-split
prediction export, copies the candidate's full metric snapshot (every
configured K, both splits) into the best snapshot and records the
triggering epoch; on non-improvement (including equality on either metric)
best snapshot, best epoch are unchanged and nothing is persisted. -/
theorem c1_model_selector {M E : Type} (conf : Conf) (model : M)
    (confDict : List (String × String)) (metrics : Snapshot) (epoch : ℕ)
    (best : Snapshot) (best_epoch : ℕ) (exportD : E) :
    ((best.valRecall conf.topk_valid < metrics.valRecall conf.topk_valid ∧
        best.valNdcg conf.topk_valid < metrics.valNdcg conf.topk_valid) →
      ((∀ k ∈ conf.topk,
          (log_metrics conf model confDict metrics epoch best best_epoch exportD).1.valRecall k
              = metrics.valRecall k ∧
          (log_metrics conf model confDict metrics epoch best best_epoch exportD).1.valNdcg k
              = metrics.valNdcg k ∧
          (log_metrics conf model confDict metrics epoch best best_epoch exportD).1.testRecall k
              = metrics.testRecall k ∧
          (log_metrics conf model confDict metrics epoch best best_epoch exportD).1.testNdcg k
              = metrics.testNdcg k) ∧
        (log_metrics conf model confDict metrics epoch best best_epoch exportD).2.1 = epoch ∧
        (log_metrics conf model confDict metrics epoch best best_epoch exportD).2.2 =
          some (model, confDict.filter (fun p => p.1 ≠ "device"), exportD))) ∧
    (¬ (best.valRecall conf.topk_valid < metrics.valRecall conf.topk_valid ∧
        best.valNdcg conf.topk_valid < metrics.valNdcg conf.topk_valid) →
      log_metrics conf model confDict metrics epoch best best_epoch exportD =
        (best, best_epoch, none)) := by
  constructor
  · intro h
    unfold log_metrics
    rw [if_pos h]
    refine ⟨fun k hk => ?_, rfl, rfl⟩
    simp [updateBest, hk]
  · intro h
    unfold log_metrics
    rw [if_neg h]

/-- C1 witness: the two transitions of the spec's examples. With best
val-recall 10 and val-ndcg 8 at the primary K = 20, the candidate
(12, 7) is rejected without persisting anything, while the candidate
(12, 9) updates the snapshot, records epoch 5 and persists model, device-
stripped configuration and export. -/
theorem c1_model_selector_witness :
    (@log_metrics ℕ ℕ ⟨[20], 20⟩ 0 [("device", "cuda"), ("lr", "3")]
        ⟨fun _ => 12, fun _ => 7, fun _ => 0, fun _ => 0⟩ 5
        ⟨fun _ => 10, fun _ => 8, fun _ => 0, fun _ => 0⟩ 1 99 =
      (⟨fun _ => 10, fun _ => 8, fun _ => 0, fun _ => 0⟩, 1, none)) ∧
    ((@log_metrics ℕ ℕ ⟨[20], 20⟩ 0 [("device", "cuda"), ("lr", "3")]
        ⟨fun _ => 12, fun _ => 9, fun _ => 0, fun _ => 0⟩ 5
        ⟨fun _ => 10, fun _ => 8, fun _ => 0, fun _ => 0⟩ 1 99).2.1 = 5 ∧
      (@log_metrics ℕ ℕ ⟨[20], 20⟩ 0 [("device", "cuda"), ("lr", "3")]
        ⟨fun _ => 12, fun _ => 9, fun _ => 0, fun _ => 0⟩ 5
        ⟨fun _ => 10, fun _ => 8, fun _ => 0, fun _ => 0⟩ 1 99).2.2 =
          some (0, [("lr", "3")], 99) ∧
      (@log_metrics ℕ ℕ ⟨[20], 20⟩ 0 [("device", "cuda"), ("lr", "3")]
        ⟨fun _ => 12, fun _ => 9, fun _ => 0, fun _ => 0⟩ 5
        ⟨fun _ => 10, fun _ => 8, fun _ => 0, fun _ => 0⟩ 1 99).1.valRecall 20 = 12) := by
  have hno := (@c1_model_selector ℕ ℕ ⟨[20], 20⟩ 0 [("device", "cuda"), ("lr", "3")]
    ⟨fun _ => 12, fun _ => 7, fun _ => 0, fun _ => 0⟩ 5
    ⟨fun _ => 10, fun _ => 8, fun _ => 0, fun _ => 0⟩ 1 99).2
  have hyes := (@c1_model_selector ℕ ℕ ⟨[20], 20⟩ 0 [("device", "cuda"), ("lr", "3")]
    ⟨fun _ => 12, fun _ => 9, fun _ => 0, fun _ => 0⟩ 5
    ⟨fun _ => 10, fun _ => 8, fun _ => 0, fun _ => 0⟩ 1 99).1
      ⟨by decide, by decide⟩
  refine ⟨hno (by decide), hyes.2.1, ?_, (hyes.1 20 (by decide)).1⟩
  rw [hyes.2.2]
  decide

/-! ## The ED augmentation schedule -/

/-- C8 (amended): with augmentation type ED and a nonzero divisor, the
alternative edge-dropout mode triggers exactly when the 1-based global
batch counter `batch_anchor + 1` is a positive multiple of
`ed_interval_bs = int(batch_cnt * ed_interval)` — the divisor is the
TRUNCATED product (`int(...)`), not its ceiling. -/
theorem c8_ed_schedule (bc : ℕ) (q : ℚ) (t : ℕ) (hd : ed_interval_bs bc q ≠ 0) :
    edDrop "ED" bc q t = some true ↔
      ∃ m : ℕ, 0 < m ∧ t + 1 = m * ed_interval_bs bc q := by
  unfold edDrop
  rw [if_pos rfl, if_neg hd]
  constructor
  · intro h
    have hmod : (t + 1) % ed_interval_bs bc q = 0 := by
      have h2 := Option.some.inj h
      simpa using h2
    obtain ⟨m, hm⟩ := Nat.dvd_of_mod_eq_zero hmod
    rcases Nat.eq_zero_or_pos m with h0 | h0
    · rw [h0, Nat.mul_zero] at hm
      omega
    · exact ⟨m, h0, by rw [hm, Nat.mul_comm]⟩
  · rintro ⟨m, hm0, hme⟩
    have hmod : (t + 1) % ed_interval_bs bc q = 0 := by
      rw [hme]
      exact Nat.mul_mod_left m _
    simp [hmod]

/-- C8 witness: with 10 batches per epoch and `ed_interval = 2` the divisor
is 20, and the batch with global index 19 (counter 20) triggers ED. -/
theorem c8_ed_schedule_witness : edDrop "ED" 10 2 19 = some true := by
  have h1 : ((10 : ℕ) : ℚ) * 2 = mkRat 20 1 := by
    rw [Rat.mkRat_eq_div]
    norm_num
  have h2 : ed_interval_bs 10 2 = 20 := by
    unfold ed_interval_bs
    rw [h1]
    decide
  exact (c8_ed_schedule 10 2 19 (by rw [h2]; decide)).mpr ⟨1, by decide, by rw [h2]⟩

/-- C8 counterexample: with 10 train batches and `ed_interval = 1/4` the
source divisor is `int(2.5) = 2`, so the batch with global index 1
(counter 2) triggers ED dropout, while the spec's `ceil(2.5) = 3`
schedule predicts no trigger there — the schedule period is the truncated
product, not its ceiling. -/
theorem c8_counterexample :
    edDrop "ED" 10 (1/4) 1 = some true ∧
      ¬ ((1 + 1) % ceilInterval 10 (1/4) = 0) := by
  have h1 : ((10 : ℕ) : ℚ) * (1/4) = mkRat 5 2 := by
    rw [Rat.mkRat_eq_div]
    norm_num
  have h2 : ed_interval_bs 10 (1/4) = 2 := by
    unfold ed_interval_bs
    rw [h1]
    decide
  have hc : ceilInterval 10 (1/4) = 3 := by
    unfold ceilInterval
    rw [show (⌈((10 : ℕ) : ℚ) * (1/4)⌉ : ℤ) = 3 by
      rw [Int.ceil_eq_iff]
      constructor <;> norm_num]
    decide
  constructor
  · unfold edDrop
    rw [if_pos rfl, if_neg (by rw [h2]; decide)]
    rw [h2]
    decide
  · rw [hc]
    decide

/-- C10: with augmentation type ED and `int(batch_cnt * ed_interval) = 0`,
evaluating the `(batch_anchor + 1) % ed_interval_bs` guard raises a
modulo-by-zero error (modelled as `none`) — in particular already at the
very first training batch (`batch_anchor = 0`), before any loss is
computed. -/
theorem c10_modulo_by_zero (bc : ℕ) (q : ℚ) (t : ℕ) (h : ed_interval_bs bc q = 0) :
    edDrop "ED" bc q t = none := by
  simp [edDrop, h]

/-- C10 witness: 10 batches per epoch with `ed_interval = 1/20` gives
`int(0.5) = 0`, and the first batch errors. -/
theorem c10_modulo_by_zero_witness : edDrop "ED" 10 (1/20) 0 = none := by
  have h1 : ((10 : ℕ) : ℚ) * (1/20) = mkRat 1 2 := by
    rw [Rat.mkRat_eq_div]
    norm_num
  exact c10_modulo_by_zero 10 (1/20) 0 (by unfold ed_interval_bs; rw [h1]; decide)

/-! ## Masking and top-k membership -/

theorem rankRel_total (pred : List ℚ) : ∀ i j, rankRel pred i j ∨ rankRel pred j i := by
  intro i j
  unfold rankRel
  rcases lt_trichotomy (pred.getD i 0) (pred.getD j 0) with h | h | h
  · exact Or.inr (Or.inl h)
  · rcases Nat.le_total i j with hij | hij
    · exact Or.inl (Or.inr ⟨h, hij⟩)
    · exact Or.inr (Or.inr ⟨h.symm, hij⟩)
  · exact Or.inl (Or.inl h)

theorem rankRel_trans (pred : List ℚ) :
    ∀ i j l, rankRel pred i j → rankRel pred j l → rankRel pred i l := by
  intro i j l hij hjl
  unfold rankRel at hij hjl ⊢
  rcases hij with h1 | ⟨h1e, h1le⟩
  · rcases hjl with h2 | ⟨h2e, h2le⟩
    · exact Or.inl (lt_trans h2 h1)
    · exact Or.inl (h2e ▸ h1)
  · rcases hjl with h2 | ⟨h2e, h2le⟩
    · exact Or.inl (by rw [h1e]; exact h2)
    · exact Or.inr ⟨by rw [h1e, h2e], le_trans h1le h2le⟩

theorem applyMask_length (pred : List ℚ) (mask : List Bool) :
    (applyMask pred mask).length = pred.length := by
  simp [applyMask]

theorem applyMask_getD (pred : List ℚ) (mask : List Bool) (i : ℕ) (hi : i < pred.length) :
    (applyMask pred mask).getD i 0 =
      pred.getD i 0 - (if mask.getD i false then 100000000 else 0) := by
  unfold applyMask
  rw [List.getD_eq_getElem _ _ (by simpa using hi)]
  rw [List.getElem_map, List.getElem_range]

/-- C5 (amended): provided every raw score is bounded (|score| < 5·10⁷, so
the 1e8 penalty dominates any legitimate score) and the user has at least K
unmasked items, no train-seen (masked) item appears among the user's top-K
indices after the `pred -= 1e8 * mask` penalty. (With fewer than K unmasked
items, masked items necessarily fill the remaining top-K slots, and an
unbounded score below -1e8 can outrank a penalized one — see the
counterexample.) -/
theorem c5_mask_excludes (pred : List ℚ) (mask : List Bool) (k : ℕ)
    (hbound : ∀ i < pred.length, -50000000 < pred.getD i 0 ∧ pred.getD i 0 < 50000000)
    (hk : k ≤ ((Finset.range pred.length).filter
        (fun u => mask.getD u false = false)).card) :
    ∀ idx ∈ topkIdx (applyMask pred mask) k, mask.getD idx false = false := by
  intro idx hidx
  by_contra hm
  have hmtrue : mask.getD idx false = true := by
    cases hmask : mask.getD idx false with
    | true => rfl
    | false => exact absurd hmask hm
  clear hm
  set mp := applyMask pred mask with hmp
  have hlen : mp.length = pred.length := applyMask_length pred mask
  set S := List.insertionSort (rankRel mp) (List.range mp.length) with hS
  have hidxS : idx ∈ List.take k S := hidx
  have hperm : List.Perm S (List.range mp.length) := List.perm_insertionSort _ _
  have hsort : List.Pairwise (rankRel mp) S := by
    letI : IsTotal ℕ (rankRel mp) := ⟨rankRel_total mp⟩
    letI : IsTrans ℕ (rankRel mp) := ⟨rankRel_trans mp⟩
    exact List.sorted_insertionSort _ _
  have hidxn : idx < pred.length := by
    rw [← hlen]
    exact List.mem_range.mp (hperm.subset ((List.take_sublist k S).subset hidxS))
  have hval : ∀ u, u < pred.length → mask.getD u false = false →
      mp.getD idx 0 < mp.getD u 0 := by
    intro u hu hmu
    have h1 := applyMask_getD pred mask idx hidxn
    have h2 := applyMask_getD pred mask u hu
    rw [hmtrue] at h1
    rw [hmu] at h2
    have hb1 := hbound idx hidxn
    have hb2 := hbound u hu
    rw [← hmp] at h1 h2
    rw [h1, h2]
    have h3 : (if true = true then (100000000 : ℚ) else 0) = 100000000 := if_pos rfl
    have h4 : (if false = true then (100000000 : ℚ) else 0) = 0 := if_neg (by simp)
    rw [h3, h4]
    linarith [hb1.2, hb2.1]
  have hcross : ∀ a ∈ List.take k S, ∀ b ∈ List.drop k S, rankRel mp a b := by
    have hps := hsort
    rw [← List.take_append_drop k S] at hps
    exact fun a ha b hb => (List.pairwise_append.mp hps).2.2 a ha b hb
  have hunmasked_take : ∀ u, u < pred.length → mask.getD u false = false →
      u ∈ List.take k S := by
    intro u hu hmu
    have huS : u ∈ S := hperm.symm.subset (List.mem_range.mpr (by rwa [hlen]))
    rw [← List.take_append_drop k S] at huS
    rcases List.mem_append.mp huS with htake | hdrop
    · exact htake
    · exfalso
      have hr := hcross idx hidxS u hdrop
      have hlt := hval u hu hmu
      unfold rankRel at hr
      rcases hr with h | ⟨he, _⟩
      · exact lt_asymm hlt h
      · exact (ne_of_lt hlt) he
  set U := (Finset.range pred.length).filter (fun u => mask.getD u false = false) with hU
  have hsubset : insert idx U ⊆ (List.take k S).toFinset := by
    intro x hx
    rcases Finset.mem_insert.mp hx with rfl | hxU
    · exact List.mem_toFinset.mpr hidxS
    · have hmem := Finset.mem_filter.mp hxU
      exact List.mem_toFinset.mpr (hunmasked_take x (Finset.mem_range.mp hmem.1) hmem.2)
  have hidxU : idx ∉ U := by
    intro hmem
    have hcond := (Finset.mem_filter.mp hmem).2
    rw [hmtrue] at hcond
    simp at hcond
  have hcard1 : U.card + 1 ≤ (List.take k S).toFinset.card := by
    have hc := Finset.card_le_card hsubset
    rwa [Finset.card_insert_of_not_mem hidxU] at hc
  have hcard2 : (List.take k S).toFinset.card ≤ k :=
    le_trans (List.toFinset_card_le _) (List.length_take_le k S)
  omega

/-- C5 witness: scores `[3, 7, 5]` with item 1 train-seen and K = 2; index
2 is in the top-2 of the masked scores, and the theorem reports it
unmasked. -/
theorem c5_mask_excludes_witness :
    ([false, true, false] : List Bool).getD 2 false = false := by
  have hm : applyMask [3, 7, 5] [false, true, false] = [3, -99999993, 5] := by
    unfold applyMask
    norm_num [List.range_succ]
  exact c5_mask_excludes [3, 7, 5] [false, true, false] 2 (by decide) (by decide) 2
    (by rw [hm]; decide)

/-- C5 counterexample: the claim as stated (for EVERY mask density,
including all-but-one masked) fails: with scores `[0, 1]`, item 0 masked
and K = 2, `torch.topk` must still return two indices, so the masked item
0 appears in the top-2. -/
theorem c5_counterexample :
    0 ∈ topkIdx (applyMask [0, 1] [true, false]) 2 ∧
      ([true, false] : List Bool).getD 0 false = true := by
  have hm : applyMask [0, 1] [true, false] = [(-100000000 : ℚ), 1] := by
    unfold applyMask
    norm_num [List.range_succ]
  rw [hm]
  exact ⟨by decide, by decide⟩

/-! ## The accumulator as a sum over batches -/

theorem accMetrics_foldl (topks : List ℕ) (bs : List (List EvalRow))
    (acc : ℕ → (ℚ × ℕ) × ℕ) (k : ℕ) :
    List.foldl (stepAcc topks) acc bs k =
      if k ∈ topks then
        (((acc k).1.1 + (bs.map (fun b => (get_recall b k).1)).sum,
          (acc k).1.2 + (bs.map (fun b => (get_recall b k).2)).sum),
         (acc k).2 + (bs.map (fun b => ndcgDen b k)).sum)
      else acc k := by
  induction bs generalizing acc with
  | nil =>
    by_cases hk : k ∈ topks
    · simp [hk]
    · simp [hk]
  | cons b bs ih =>
    rw [List.foldl_cons, ih]
    by_cases hk : k ∈ topks
    · simp [stepAcc, hk, add_assoc]
    · simp [stepAcc, hk]

theorem accNdcgNom_foldl (topks : List ℕ) (bs : List (List EvalRow))
    (acc : ℕ → ℝ) (k : ℕ) :
    List.foldl (stepNdcgNom topks) acc bs k =
      if k ∈ topks then acc k + (bs.map (fun b => (get_ndcg b k).1)).sum
      else acc k := by
  induction bs generalizing acc with
  | nil =>
    by_cases hk : k ∈ topks
    · simp [hk]
    · simp [hk]
  | cons b bs ih =>
    rw [List.foldl_cons, ih]
    by_cases hk : k ∈ topks
    · simp [stepNdcgNom, hk, add_assoc]
    · simp [stepNdcgNom, hk]

/-- C6: feeding the same batches to the metric accumulation in any permuted
order yields identical final metrics for every K — the `test` outcome
(including the raised-or-not decision and both final recall and ndcg
functions) is invariant under permutation of the batch list. -/
theorem c6_batch_order_independence (bs1 bs2 : List (List TestRow)) (topks : List ℕ)
    (hp : List.Perm bs1 bs2) : test bs1 topks = test bs2 topks := by
  have hev : List.Perm (bs1.map evalBatch) (bs2.map evalBatch) := hp.map _
  have hacc : accMetrics (bs1.map evalBatch) topks = accMetrics (bs2.map evalBatch) topks := by
    funext k
    unfold accMetrics
    rw [accMetrics_foldl, accMetrics_foldl]
    by_cases hk : k ∈ topks
    · rw [if_pos hk, if_pos hk]
      rw [(hev.map (fun b => (get_recall b k).1)).sum_eq]
      rw [(hev.map (fun b => (get_recall b k).2)).sum_eq]
      rw [(hev.map (fun b => ndcgDen b k)).sum_eq]
    · rw [if_neg hk, if_neg hk]
  have hnom : accNdcgNom (bs1.map evalBatch) topks = accNdcgNom (bs2.map evalBatch) topks := by
    funext k
    unfold accNdcgNom
    rw [accNdcgNom_foldl, accNdcgNom_foldl]
    by_cases hk : k ∈ topks
    · rw [if_pos hk, if_pos hk]
      rw [(hev.map (fun b => (get_ndcg b k).1)).sum_eq]
    · rw [if_neg hk, if_neg hk]
  unfold test
  rw [hacc, hnom]

/-- C6 witness: swapping two concrete one-user batches leaves the `test`
outcome unchanged. -/
theorem c6_batch_order_independence_witness :
    test [[⟨[true], [1], [false]⟩], [⟨[false], [2], [false]⟩]] [1] =
      test [[⟨[false], [2], [false]⟩], [⟨[true], [1], [false]⟩]] [1] :=
  c6_batch_order_independence _ _ [1] (List.Perm.swap _ _ _)

/-- C9: the final `res[0] / res[1]` division of `test` is unguarded — if
every user of every batch has zero ground-truth positives, every
denominator stays 0 for the whole pass and `test` raises a
division-by-zero error (modelled as `none`) instead of returning metrics. -/
theorem c9_zero_denominator_raises (batches : List (List TestRow)) (topks : List ℕ)
    (hne : topks ≠ []) (h : ∀ b ∈ batches, ∀ r ∈ b, numPos r.grd = 0) :
    test batches topks = none := by
  obtain ⟨k0, hk0⟩ : ∃ k0, k0 ∈ topks := by
    cases topks with
    | nil => exact absurd rfl hne
    | cons a t => exact ⟨a, List.mem_cons_self a t⟩
  have hden : (accMetrics (batches.map evalBatch) topks k0).1.2 = 0 := by
    unfold accMetrics
    rw [accMetrics_foldl, if_pos hk0]
    have hz : ∀ x ∈ (batches.map evalBatch).map (fun b => (get_recall b k0).2), x = 0 := by
      intro x hx
      obtain ⟨b, hb, rfl⟩ := List.mem_map.mp hx
      obtain ⟨tb, htb, rfl⟩ := List.mem_map.mp hb
      rw [recall_den_eq_countP]
      refine List.countP_eq_zero.mpr ?_
      intro r hr
      obtain ⟨row, hrow, rfl⟩ := List.mem_map.mp hr
      simp [h tb htb row hrow]
    rw [List.sum_eq_zero hz]
    simp [initAcc]
  have hguard : (topks.all fun k =>
      !((accMetrics (batches.map evalBatch) topks k).1.2 == 0) &&
        !((accMetrics (batches.map evalBatch) topks k).2 == 0)) = false := by
    refine List.all_eq_false.mpr ⟨k0, hk0, ?_⟩
    rw [hden]
    simp
  unfold test
  rw [hguard]
  simp

/-- C9 witness: a single one-user batch whose user has no positives makes
the pass raise. -/
theorem c9_zero_denominator_raises_witness :
    test [[⟨[false], [1], [false]⟩]] [1] = none :=
  c9_zero_denominator_raises [[⟨[false], [1], [false]⟩]] [1] (by decide) (by decide)

/-! ## Single-user recall -/

theorem applyMask_nil_mask (pred : List ℚ) : applyMask pred [] = pred := by
  unfold applyMask
  refine List.ext_getElem (by simp) ?_
  intro i hi1 hi2
  simp only [List.getElem_map, List.getElem_range]
  rw [List.getD_nil, List.getD_eq_getElem _ _ hi2]
  simp

/-- For a single-user, single-batch pass whose user has at least one
positive and every configured K positive, `test` succeeds and the final
recall at any configured K is the user's `hit_cnt / (num_pos + epsilon)`. -/
theorem test_single_user_recall (r : TestRow) (topks : List ℕ) (k : ℕ)
    (hk : k ∈ topks) (hpos : ∀ j ∈ topks, 0 < j) (h1 : 0 < numPos r.grd) :
    (test [[r]] topks).map (fun p => p.1 k) =
      some ((hitCnt r.grd (applyMask r.pred r.mask) k : ℚ) /
        ((numPos r.grd : ℚ) + epsilon)) := by
  have hmapev : ([[r]] : List (List TestRow)).map evalBatch =
      [[(⟨r.grd, applyMask r.pred r.mask⟩ : EvalRow)]] := by
    simp [evalBatch]
  have hA : accMetrics [[(⟨r.grd, applyMask r.pred r.mask⟩ : EvalRow)]] topks =
      stepAcc topks initAcc [⟨r.grd, applyMask r.pred r.mask⟩] := rfl
  have hrden : ∀ j, (get_recall [(⟨r.grd, applyMask r.pred r.mask⟩ : EvalRow)] j).2 = 1 := by
    intro j
    rw [recall_den_eq_countP]
    simp [h1]
  have hnden : ∀ j ∈ topks, ndcgDen [(⟨r.grd, applyMask r.pred r.mask⟩ : EvalRow)] j = 1 := by
    intro j hj
    rw [ndcgDen_eq_countP _ _ (hpos j hj)]
    simp [h1]
  have hguard : (topks.all fun j =>
      !((accMetrics (([[r]] : List (List TestRow)).map evalBatch) topks j).1.2 == 0) &&
        !((accMetrics (([[r]] : List (List TestRow)).map evalBatch) topks j).2 == 0)) = true := by
    rw [hmapev]
    refine List.all_eq_true.mpr ?_
    intro j hj
    rw [hA]
    unfold stepAcc
    rw [if_pos hj]
    simp [initAcc, hrden j, hnden j hj]
  unfold test
  rw [hguard]
  rw [if_pos rfl]
  rw [Option.map_some']
  congr 1
  simp only [hmapev, hA]
  unfold stepAcc
  rw [if_pos hk]
  dsimp only [initAcc]
  rw [hrden k]
  rw [zero_add, Nat.zero_add, Nat.cast_one, div_one]
  unfold get_recall
  dsimp only
  rw [List.map_cons, List.map_nil, List.sum_cons, List.sum_nil, add_zero]

/-- C2 (amended): for a single-user, single-batch pass in which the user
has `p ≥ 1` positives and all of them are retrieved in the top-K, the final
Recall@K is `p / (p + 1e-8)` — the code divides by `num_pos + epsilon`, not
by `max(num_pos, epsilon)` — which is strictly below 1.0 in exact
arithmetic but within 1e-8 of it (under float32 rounding the epsilon is
absorbed and the printed value is exactly 1.0). -/
theorem c2_single_user_recall (r : TestRow) (topks : List ℕ) (k : ℕ)
    (hk : k ∈ topks) (hpos : ∀ j ∈ topks, 0 < j) (h1 : 0 < numPos r.grd)
    (hall : hitCnt r.grd (applyMask r.pred r.mask) k = numPos r.grd) :
    (test [[r]] topks).map (fun p => p.1 k) =
        some ((numPos r.grd : ℚ) / ((numPos r.grd : ℚ) + epsilon)) ∧
      (numPos r.grd : ℚ) / ((numPos r.grd : ℚ) + epsilon) < 1 ∧
      1 - (numPos r.grd : ℚ) / ((numPos r.grd : ℚ) + epsilon) < epsilon := by
  have heps : (0 : ℚ) < epsilon := by norm_num [epsilon]
  have hcast : (1 : ℚ) ≤ (numPos r.grd : ℚ) := by exact_mod_cast h1
  have hden : (0 : ℚ) < (numPos r.grd : ℚ) + epsilon := by linarith
  refine ⟨?_, ?_, ?_⟩
  · rw [test_single_user_recall r topks k hk hpos h1, hall]
  · rw [div_lt_one hden]
    linarith
  · have hrewrite : 1 - (numPos r.grd : ℚ) / ((numPos r.grd : ℚ) + epsilon) =
        epsilon / ((numPos r.grd : ℚ) + epsilon) := by
      field_simp
    rw [hrewrite, div_lt_iff₀ hden]
    nlinarith

/-- C2 witness: ground truth `[1,0]`, scores `[5,1]`, no mask, K = 1: the
single positive is retrieved and the final recall is `1 / (1 + 1e-8)`. -/
theorem c2_single_user_recall_witness :
    (test [[⟨[true, false], [5, 1], []⟩]] [1]).map (fun p => p.1 1) =
        some ((numPos [true, false] : ℚ) / ((numPos [true, false] : ℚ) + epsilon)) ∧
      (numPos [true, false] : ℚ) / ((numPos [true, false] : ℚ) + epsilon) < 1 ∧
      1 - (numPos [true, false] : ℚ) / ((numPos [true, false] : ℚ) + epsilon) < epsilon :=
  c2_single_user_recall ⟨[true, false], [5, 1], []⟩ [1] 1 (by decide) (by decide)
    (by decide) (by rw [applyMask_nil_mask]; decide)

/-- C2 counterexample: on the same single-user pass the claim predicts
Recall@1 = 1.0 exactly; the code returns `1 / (1 + 1e-8)` =
100000000/100000001 ≠ 1 (in exact arithmetic), and the per-user formula is
`hit / (num_pos + eps)`, not `hit / max(num_pos, eps)` (which would give
exactly 1). -/
theorem c2_counterexample :
    (test [[⟨[true, false], [5, 1], []⟩]] [1]).map (fun p => p.1 1) =
        some (100000000 / 100000001 : ℚ) ∧
      (100000000 / 100000001 : ℚ) ≠ 1 := by
  constructor
  · rw [test_single_user_recall ⟨[true, false], [5, 1], []⟩ [1] 1 (by decide) (by decide)
      (by decide)]
    rw [show hitCnt ([true, false] : List Bool) (applyMask [5, 1] []) 1 = 1 by
      rw [applyMask_nil_mask]; decide]
    rw [show numPos ([true, false] : List Bool) = 1 by decide]
    norm_num [epsilon]
  · norm_num

end BunCa
